import Mathlib

/-!
Shallow embedding of the text-matching and relevance-scoring core of the
monarch-initiative/community-annotation repository
(`src/annotation_validator/cli.py` and `src/annotation_validator/validator.py`).

Python strings are modelled as `List Char` (Python indexes and measures
strings by code points, as `List Char` does).  Python floats produced by
`len(...) / len(...)` divisions are modelled as exact rationals `ℚ`; where
the program renders a score to two decimals and sorts by the re-parsed
rendering, the embedding computes that rendering exactly (`render2`).
Regular-expression operations (`re.sub(r'\s+', ' ', ...)`,
`re.split(r'[.!?]+', ...)`, `re.findall(r'\b\w+\b', ...)`) are modelled by
explicit recursions over the character list that realise exactly the same
run-splitting semantics.

The source file contains two quote-replacement lines whose behaviour is
taken exactly as the Python parser reads them: the first line chains two
`str.replace` calls whose two arguments are the same ASCII double quote, so
both are no-ops; in the second line the three consecutive apostrophes open
a triple-quoted string, so the line is a single `str.replace` call whose
first argument is the 15-character ASCII fragment spelled out in
`needleLit` and whose second argument is one apostrophe, executed before
`lower()`.  The embedding reproduces this (see `normalize_text`).
-/

namespace CommunityAnnotation

/-- Python `\s` / `str.strip()` whitespace over the ASCII range: space, tab,
newline, carriage return, vertical tab, form feed. -/
def isSpace (c : Char) : Bool :=
  c = ' ' || c = '\t' || c = '\n' || c = '\r' || c = '\x0b' || c = '\x0c'

/-- The sentence-splitting delimiters of `re.split(r'[.!?]+', content)`. -/
def isSentenceDelim (c : Char) : Bool :=
  c = '.' || c = '!' || c = '?'

/-- Python `str.lower()` restricted to the ASCII letters (the inputs the
program compares are ASCII-based; non-ASCII characters pass through). -/
def lowerChar (c : Char) : Char :=
  if c = 'A' then 'a' else if c = 'B' then 'b' else if c = 'C' then 'c'
  else if c = 'D' then 'd' else if c = 'E' then 'e' else if c = 'F' then 'f'
  else if c = 'G' then 'g' else if c = 'H' then 'h' else if c = 'I' then 'i'
  else if c = 'J' then 'j' else if c = 'K' then 'k' else if c = 'L' then 'l'
  else if c = 'M' then 'm' else if c = 'N' then 'n' else if c = 'O' then 'o'
  else if c = 'P' then 'p' else if c = 'Q' then 'q' else if c = 'R' then 'r'
  else if c = 'S' then 's' else if c = 'T' then 't' else if c = 'U' then 'u'
  else if c = 'V' then 'v' else if c = 'W' then 'w' else if c = 'X' then 'x'
  else if c = 'Y' then 'y' else if c = 'Z' then 'z' else c

/-- Python `str.strip()`: drop leading and trailing whitespace. -/
def stripChars (l : List Char) : List Char :=
  ((l.dropWhile isSpace).reverse.dropWhile isSpace).reverse

/-- Model of `re.sub(r'\s+', ' ', l)`: every maximal run of whitespace characters is
replaced by a single ASCII space. -/
def collapseWs : List Char → List Char
  | [] => []
  | [c] => if isSpace c then [' '] else [c]
  | c :: d :: rest =>
    if isSpace c then
      if isSpace d then collapseWs (d :: rest)
      else ' ' :: collapseWs (d :: rest)
    else c :: collapseWs (d :: rest)

/-- The first argument of the single effective `str.replace` call in
`normalize_text` (the content of the triple-quoted string the source line
parses into): comma, space, double quote, apostrophe, double quote, closing
parenthesis, dot, the word replace, opening parenthesis. -/
def needleLit : List Char :=
  [',', ' ', '"', '\'', '"', ')', '.', 'r', 'e', 'p', 'l', 'a', 'c', 'e', '(']

/-- Python `str.replace(needle, repl)` with a nonempty needle: scan left to
right, replacing non-overlapping occurrences.  The fuel argument (the
length of the remaining text suffices) keeps the recursion structural. -/
def replaceAllAux (needle repl : List Char) : Nat → List Char → List Char
  | _, [] => []
  | 0, l => l
  | fuel + 1, c :: t =>
    if needle.isPrefixOf (c :: t) then
      repl ++ replaceAllAux needle repl fuel ((c :: t).drop needle.length)
    else c :: replaceAllAux needle repl fuel t

/-- Python `l.replace(needle, repl)` for a nonempty needle. -/
def replaceAll (needle repl l : List Char) : List Char :=
  replaceAllAux needle repl l.length l

/-- Embedding of `TextValidator.normalize_text` from cli.py (byte-identical
in validator.py), exactly as the staged source parses:
`text = re.sub(r'\s+', ' ', text.strip())`; then two `replace` calls whose
arguments are the same ASCII double quote (no-ops, hence omitted here);
then one `replace` call substituting a single apostrophe for the
15-character literal `needleLit`; then `lower()`. -/
def normalize_text (l : List Char) : List Char :=
  (replaceAll needleLit ['\''] (collapseWs (stripChars l))).map lowerChar

/-- The maximal runs of characters satisfying `keep`, in order, dropping the
separating characters entirely (so no empty runs). -/
def keepRuns (keep : Char → Bool) : List Char → List (List Char)
  | [] => []
  | [c] => if keep c then [[c]] else []
  | c :: d :: rest =>
    if keep c then
      if keep d then
        match keepRuns keep (d :: rest) with
        | [] => [[c]]
        | w :: ws => (c :: w) :: ws
      else [c] :: keepRuns keep (d :: rest)
    else keepRuns keep (d :: rest)

/-- Python `str.split()` (no separator): the maximal whitespace-free words of
the string, in order, with no empty words. -/
def words (l : List Char) : List (List Char) :=
  keepRuns (fun c => !isSpace c) l

/-- The word-token set used by `TextValidator.calculate_similarity`:
`set(self.normalize_text(t).split())`. -/
def wordSet (l : List Char) : Finset (List Char) :=
  (words (normalize_text l)).toFinset

/-- Embedding of `TextValidator.calculate_similarity` from cli.py (identical in
validator.py): Jaccard index of the two word-token sets, `0.0` when either
set is empty. -/
def calculate_similarity (text1 text2 : List Char) : ℚ :=
  let words1 := wordSet text1
  let words2 := wordSet text2
  if words1 = ∅ ∨ words2 = ∅ then 0
  else ((words1 ∩ words2).card : ℚ) / ((words1 ∪ words2).card : ℚ)

/-- Position of the first occurrence of `needle` in `hay` (Python
`hay.find(needle)`), `none` when absent (`needle in hay` is false). -/
def substrPos (needle : List Char) : List Char → Option Nat
  | [] => if needle.isPrefixOf [] then some 0 else none
  | c :: t =>
    if needle.isPrefixOf (c :: t) then some 0
    else (substrPos needle t).map (· + 1)

/-- Python `needle in hay` for strings. -/
def containsSub (needle hay : List Char) : Bool :=
  (substrPos needle hay).isSome

/-- Model of `re.split` on maximal runs of delimiter characters: the segments between
runs, keeping the empty segments that `re.split(r'[.!?]+', s)` produces when
the string starts or ends with a delimiter. -/
def splitRuns (p : Char → Bool) : List Char → List (List Char)
  | [] => [[]]
  | [c] => if p c then [[], []] else [[c]]
  | c :: d :: rest =>
    if p c then
      if p d then splitRuns p (d :: rest)
      else [] :: splitRuns p (d :: rest)
    else
      match splitRuns p (d :: rest) with
      | [] => [[c]]
      | s :: ss => (c :: s) :: ss

/-- Round a nonnegative rational to the nearest integer, ties to even —
the rounding used both by conversion to IEEE-754 binary64 and by CPython
correctly rounded float formatting. -/
def roundHalfEven (x : ℚ) : ℤ :=
  let f := ⌊x⌋
  if x - f < 1/2 then f
  else if 1/2 < x - f then f + 1
  else if f % 2 = 0 then f else f + 1

/-- Smallest `k ≤ fuel` with `x * 2^k ≥ 1` (`fuel` when none). -/
def findExp : Nat → ℚ → Nat
  | 0, _ => 0
  | fuel + 1, x => if 1 ≤ x then 0 else 1 + findExp fuel (2 * x)

/-- The IEEE-754 binary64 value nearest to `x`, for `0 ≤ x ≤ 1` (the range
of similarity scores): round the significand to 53 bits, ties to even;
values below `2^(-1022)` use the subnormal step `2^(-1074)`.  Nonpositive
inputs return 0 (scores are never negative). -/
def toDouble (x : ℚ) : ℚ :=
  if x ≤ 0 then 0
  else
    let k := findExp 1023 x
    let t : Nat := if k = 1023 then 1074 else 52 + k
    (roundHalfEven (x * 2 ^ t) : ℚ) / 2 ^ t

/-- The two-decimal value the program embeds in a suggestion string and
later re-parses as its sort key: the two-decimal rendering of the double
nearest to the exact score.  CPython formatting is correctly rounded (ties
to even), and re-parsing `k/100` for `k = 0..100` is strictly monotone in
`k`, so comparing these exact rationals orders suggestions exactly as the
program compares the re-parsed floats. -/
def render2 (x : ℚ) : ℚ :=
  (roundHalfEven (toDouble x * 100) : ℚ) / 100

/-- The result quadruple of `TextValidator.find_text_in_content`:
`(found, score, context, suggestions)`.  A suggestion is modelled as the
data content of the Python suggestion string: the two-decimal rendering of
the similarity score (`render2`, which the sort key
`float(x.split()[1][:-1])` re-reads) paired with the first 100 characters
of the sentence. -/
structure MatchResult where
  found : Bool
  score : ℚ
  context : List Char
  suggestions : List (ℚ × List Char)
deriving DecidableEq, Repr

/-- One step of Python's stable sort: insert an earlier-listed element into an
already sorted-descending list, before any element with an equal key. -/
def insertDesc (x : ℚ × List Char) : List (ℚ × List Char) → List (ℚ × List Char)
  | [] => [x]
  | y :: ys => if x.1 < y.1 then y :: insertDesc x ys else x :: y :: ys

/-- Model of `sorted(suggestions, key=score, reverse=True)`: stable descending sort by
the embedded score. -/
def sortDesc : List (ℚ × List Char) → List (ℚ × List Char)
  | [] => []
  | x :: xs => insertDesc x (sortDesc xs)

/-- The sentence loop of `TextValidator.find_text_in_content` (cli.py), over
the raw pieces of `re.split(r'[.!?]+', content)` with the running best score,
best sentence, and suggestion accumulator. -/
def findLoop (ns : List Char) (threshold : ℚ) :
    List (List Char) → ℚ → List Char → List (ℚ × List Char) → MatchResult
  | [], best, bestSent, sugg => ⟨false, best, bestSent, (sortDesc sugg).take 3⟩
  | raw :: rest, best, bestSent, sugg =>
    let s := stripChars raw
    if s.length < 10 then findLoop ns threshold rest best bestSent sugg
    else
      let sim := calculate_similarity ns s
      let best' := if best < sim then sim else best
      let bestSent' := if best < sim then s else bestSent
      let sugg' := if (1 : ℚ)/2 ≤ sim then sugg ++ [(render2 sim, s.take 100)] else sugg
      if threshold ≤ sim then ⟨true, sim, s, sugg'⟩
      else findLoop ns threshold rest best' bestSent' sugg'

/-- Embedding of `TextValidator.find_text_in_content` from cli.py.  Exact path: if the
normalized quotation occurs in the normalized document, the context window is
`content[max(0, p-100) : min(len(content), p+len(supporting_text)+100)]`
(Nat subtraction realises the `max(0, ·)` clamp), stripped.  Fuzzy path:
first-match scan of the sentences of the original document. -/
def find_text_in_content (supporting_text content : List Char) (threshold : ℚ) :
    MatchResult :=
  let ns := normalize_text supporting_text
  let nc := normalize_text content
  match substrPos ns nc with
  | some matchPos =>
    let start := matchPos - 100
    let stop := min content.length (matchPos + supporting_text.length + 100)
    ⟨true, 1, stripChars ((content.drop start).take (stop - start)), []⟩
  | none => findLoop ns threshold (splitRuns isSentenceDelim content) 0 [] []

/-- The sentence loop of `AnnotationValidator.find_text_in_content`
(validator.py): tracks only the best score (`best = max(best, sim)`), and its
sentence list comes from the *normalized* document. -/
def findLoopV (ns : List Char) (threshold : ℚ) :
    List (List Char) → ℚ → Bool × ℚ
  | [], best => (false, best)
  | raw :: rest, best =>
    let s := stripChars raw
    if s.length < 10 then findLoopV ns threshold rest best
    else
      let sim := calculate_similarity ns s
      let best' := max best sim
      if threshold ≤ sim then (true, sim)
      else findLoopV ns threshold rest best'

/-- Embedding of `AnnotationValidator.find_text_in_content` from validator.py: returns only
`(found, score)`, and splits the *normalized* content into sentences. -/
def find_text_in_contentV (supporting_text content : List Char) (threshold : ℚ) :
    Bool × ℚ :=
  let ns := normalize_text supporting_text
  let nc := normalize_text content
  if containsSub ns nc then (true, 1)
  else findLoopV ns threshold (splitRuns isSentenceDelim nc) 0

/-- Embedding of `TextValidator.check_disease_relevance` from cli.py.  The validator state
(`self.disease_keywords`, `self.disease_name`) is passed explicitly. -/
def check_disease_relevance (disease_keywords : List (List Char))
    (disease_name : List Char) (content : List Char) : Bool × ℚ :=
  if disease_keywords.isEmpty then (true, 1)
  else
    let nc := normalize_text content
    let nMatches := (disease_keywords.filter (fun k => containsSub k nc)).length
    let score : ℚ := (nMatches : ℚ) / (disease_keywords.length : ℚ)
    let isRel := decide ((1 : ℚ)/5 ≤ score)
    if !disease_name.isEmpty && containsSub (disease_name.map lowerChar) nc then
      (true, max score ((4 : ℚ)/5))
    else (isRel, score)

/-- The fields of cli.py's `ValidationResult` dataclass. -/
structure ValidationResult where
  hpo_id : List Char
  hpo_name : List Char
  text : List Char
  reference : List Char
  found : Bool
  similarity_score : Option ℚ
  disease_relevant : Option Bool
  disease_relevance_score : Option ℚ
  error : Option (List Char)
  context : Option (List Char)
  suggestions : Option (List (ℚ × List Char))
deriving DecidableEq

/-- Embedding of `TextValidator.validate_supporting_text` from cli.py.  The awaited
`ContentFetcher.fetch_content` is modelled as a pure oracle
`fetch : reference → Option content` (`none` models both unsupported-fetch
failures and fetch errors that return `None`). -/
def validate_supporting_text (disease_keywords : List (List Char))
    (disease_name : List Char) (fetch : List Char → Option (List Char))
    (text reference : List Char) : ValidationResult :=
  if !("PMID:".toList.isPrefixOf reference || "http".toList.isPrefixOf reference) then
    ⟨[], [], text, reference, false, none, none, none,
      some "Only PMID and URL references supported".toList, none, none⟩
  else
    match fetch reference with
    | none =>
      ⟨[], [], text, reference, false, none, none, none,
        some "Could not fetch content".toList, none, none⟩
    | some content =>
      let rel := check_disease_relevance disease_keywords disease_name content
      let m := find_text_in_content text content ((4 : ℚ)/5)
      ⟨[], [], text, reference, m.found, some m.score, some rel.1, some rel.2,
        none, some m.context, some m.suggestions⟩

/-- Python `\w` word characters (ASCII model): letters, digits, underscore. -/
def isWordChar (c : Char) : Bool :=
  c.isAlpha || c.isDigit || c = '_'

/-- Model of `re.findall(r'\b\w+\b', s)`: the maximal runs of word characters. -/
def wordTokens (l : List Char) : List (List Char) :=
  keepRuns isWordChar l

/-- The stop-word set of `IdentifierValidator._check_title_match`. -/
def titleStopWords : List (List Char) :=
  ["the", "a", "an", "and", "or", "but", "in", "on", "at", "to", "for", "of",
    "with", "by", "framework", "criteria"].map String.toList

/-- Embedding of `IdentifierValidator._check_title_match` from cli.py: `False` when the
title is missing or empty (Python `if not retrieved_title`); otherwise both
strings are lowercased and stripped, tokenized on word boundaries, stop words
are removed, and the match holds iff strictly more than half of the remaining
method-name tokens occur among the title tokens. -/
def check_title_match (method_name : List Char)
    (retrieved_title : Option (List Char)) : Bool :=
  match retrieved_title with
  | none => false
  | some title =>
    if title.isEmpty then false
    else
      let methodWords :=
        (wordTokens (stripChars (method_name.map lowerChar))).toFinset \
          titleStopWords.toFinset
      let titleWords :=
        (wordTokens (stripChars (title.map lowerChar))).toFinset \
          titleStopWords.toFinset
      if methodWords.card = 0 then false
      else decide ((1 : ℚ)/2 <
        ((methodWords ∩ titleWords).card : ℚ) / (methodWords.card : ℚ))

/-- The entries of `IdentifierValidator.cache`: the dict literals
with keys valid plus title on success, or valid plus error on failure; an
absent key read back as `None` by `dict.get`. -/
structure CacheEntry where
  valid : Bool
  title : Option (List Char)
  error : Option (List Char)
deriving DecidableEq

/-- Outcome of the external CrossRef request in `validate_doi`: an HTTP 200
response whose message may or may not carry a title, a non-200 status code,
or a raised exception. -/
inductive DOILookup where
  | ok (title : Option (List Char))
  | httpError (status : Nat)
  | exn (msg : List Char)

/-- The fields of cli.py's `IdentifierValidationResult` dataclass. -/
structure IdentifierValidationResult where
  method_name : List Char
  method_id : List Char
  valid : Bool
  title_match : Option Bool
  retrieved_title : Option (List Char)
  error : Option (List Char)
deriving DecidableEq

/-- Python dict membership/read for the string-keyed cache. -/
def cacheFind (cache : List (List Char × CacheEntry)) (k : List Char) :
    Option CacheEntry :=
  match cache with
  | [] => none
  | (k', e) :: rest => if k = k' then some e else cacheFind rest k

/-- Embedding of `IdentifierValidator.validate_doi` from cli.py.  The awaited CrossRef
request is the oracle `lookup`; the returned `Nat` counts the external
lookups this call performed (0 on a cache hit, 1 on a miss), and the updated
cache is returned alongside the result. -/
def validate_doi (lookup : List Char → DOILookup)
    (cache : List (List Char × CacheEntry)) (method_name doi : List Char) :
    IdentifierValidationResult × List (List Char × CacheEntry) × Nat :=
  match cacheFind cache doi with
  | some cached =>
    (⟨method_name, doi, cached.valid, some (check_title_match method_name cached.title),
      cached.title, cached.error⟩, cache, 0)
  | none =>
    match lookup doi with
    | .ok title =>
      (⟨method_name, doi, true, some (check_title_match method_name title),
        title, none⟩, (doi, ⟨true, title, none⟩) :: cache, 1)
    | .httpError status =>
      let msg := "DOI not found (HTTP ".toList ++ (toString status).toList ++ ")".toList
      (⟨method_name, doi, false, none, none, some msg⟩,
        (doi, ⟨false, none, some msg⟩) :: cache, 1)
    | .exn m =>
      let msg := "Error validating DOI: ".toList ++ m
      (⟨method_name, doi, false, none, none, some msg⟩,
        (doi, ⟨false, none, some msg⟩) :: cache, 1)

/-! ### Correctness of the substring search -/

lemma isPrefixOf_true_iff (l₁ l₂ : List Char) :
    l₁.isPrefixOf l₂ = true ↔ l₁ <+: l₂ :=
  List.isPrefixOf_iff_prefix

lemma substrPos_eq_some_of {needle hay : List Char} {p : Nat}
    (h1 : needle <+: hay.drop p) (h2 : ∀ q < p, ¬ needle <+: hay.drop q) :
    substrPos needle hay = some p := by
  induction p generalizing hay with
  | zero =>
    simp only [List.drop_zero] at h1
    cases hay with
    | nil => simp [substrPos, (isPrefixOf_true_iff _ _).2 h1]
    | cons c t => simp [substrPos, (isPrefixOf_true_iff _ _).2 h1]
  | succ p ih =>
    cases hay with
    | nil =>
      exact absurd (by simpa using h1) (by simpa using h2 0 (Nat.succ_pos p))
    | cons c t =>
      have hnot : ¬ needle.isPrefixOf (c :: t) = true := by
        rw [isPrefixOf_true_iff]
        simpa using h2 0 (Nat.succ_pos p)
      rw [substrPos, if_neg hnot,
        ih (by simpa using h1) (fun q hq => by simpa using h2 (q + 1) (by omega))]
      rfl

lemma substrPos_isSome_iff (needle hay : List Char) :
    (substrPos needle hay).isSome = true ↔ ∃ p, needle <+: hay.drop p := by
  induction hay with
  | nil =>
    by_cases h : needle.isPrefixOf [] = true
    · simp only [substrPos, if_pos h, Option.isSome_some, true_iff]
      exact ⟨0, by simpa using (isPrefixOf_true_iff _ _).1 h⟩
    · rw [substrPos, if_neg h]
      simp only [Option.isSome_none, Bool.false_eq_true, false_iff, not_exists]
      intro p hp
      simp only [List.drop_nil] at hp
      exact h ((isPrefixOf_true_iff _ _).2 (by simpa using hp))
  | cons c t ih =>
    by_cases h : needle.isPrefixOf (c :: t) = true
    · simp only [substrPos, if_pos h, Option.isSome_some, true_iff]
      exact ⟨0, by simpa using (isPrefixOf_true_iff _ _).1 h⟩
    · rw [substrPos, if_neg h,
        show ∀ o : Option Nat, (o.map (· + 1)).isSome = o.isSome from
          fun o => by cases o <;> rfl, ih]
      constructor
      · rintro ⟨p, hp⟩
        exact ⟨p + 1, by simpa using hp⟩
      · rintro ⟨p, hp⟩
        cases p with
        | zero =>
          exact absurd ((isPrefixOf_true_iff _ _).2 (by simpa using hp)) h
        | succ p => exact ⟨p, by simpa using hp⟩

lemma exists_drop_iff_infixOf (needle hay : List Char) :
    (∃ p, needle <+: hay.drop p) ↔ needle <:+: hay := by
  constructor
  · rintro ⟨p, t, hp⟩
    exact ⟨hay.take p, t, by rw [List.append_assoc, hp, List.take_append_drop]⟩
  · rintro ⟨s, t, rfl⟩
    exact ⟨s.length, t, by simp⟩

lemma containsSub_iff (needle hay : List Char) :
    containsSub needle hay = true ↔ needle <:+: hay := by
  rw [containsSub, substrPos_isSome_iff, exists_drop_iff_infixOf]

lemma substrPos_eq_none_iff (needle hay : List Char) :
    substrPos needle hay = none ↔ ¬ needle <:+: hay := by
  rw [← containsSub_iff, containsSub]
  cases substrPos needle hay <;> simp

/-- C1: on the exact-match path, `find_text_in_content` returns `found=true`,
`score=1.0`, no suggestions, and as context the stripped slice of the
*original* document from `max(0, p-100)` (Nat subtraction) to
`min(len(document), p + len(quotation) + 100)`, where `p` is the offset of
the first occurrence of the normalized quotation in the normalized
document. -/
theorem find_text_exact_match (q c : List Char) (θ : ℚ) (p : Nat)
    (hp : normalize_text q <+: (normalize_text c).drop p)
    (hmin : ∀ i < p, ¬ normalize_text q <+: (normalize_text c).drop i) :
    find_text_in_content q c θ =
      ⟨true, 1,
        stripChars ((c.drop (p - 100)).take
          (min c.length (p + q.length + 100) - (p - 100))), []⟩ := by
  rw [find_text_in_content, substrPos_eq_some_of hp hmin]

/-- Witness for C1 at a concrete quotation and document. -/
theorem find_text_exact_match_witness :
    (normalize_text "bb".toList <+: (normalize_text "aa  bb cc".toList).drop 3) ∧
      (∀ i < 3, ¬ normalize_text "bb".toList <+: (normalize_text "aa  bb cc".toList).drop i) ∧
      find_text_in_content "bb".toList "aa  bb cc".toList ((4 : ℚ)/5) =
        ⟨true, 1, "aa  bb cc".toList, []⟩ :=
  ⟨by decide, by decide, by
    rw [find_text_exact_match "bb".toList "aa  bb cc".toList ((4 : ℚ)/5) 3
      (by decide) (by decide)]
    decide⟩

/-! ### The fuzzy path: candidate sentences, suggestion collection, best
tracking -/

/-- The candidate list a raw piece list induces: each piece stripped, pieces
shorter than 10 characters after stripping discarded. -/
def candList (raw : List (List Char)) : List (List Char) :=
  (raw.map stripChars).filter (fun s => decide (10 ≤ s.length))

/-- The candidate sentences of the fuzzy path of cli.py's
`find_text_in_content`: the original document split on `[.!?]+`, stripped,
with candidates shorter than 10 characters discarded. -/
def candidates (content : List Char) : List (List Char) :=
  candList (splitRuns isSentenceDelim content)

/-- The suggestion entries collected by the loop from a candidate list: one
`(two-decimal rendered score, first 100 characters)` entry per candidate
whose exact score is at least 0.5, in document order. -/
def collectSug (ns : List Char) (cands : List (List Char)) : List (ℚ × List Char) :=
  cands.filterMap (fun s =>
    if (1 : ℚ)/2 ≤ calculate_similarity ns s then
      some (render2 (calculate_similarity ns s), s.take 100)
    else none)

/-- The best-score/best-sentence tracking of the loop (strict improvement,
so the first candidate attaining the final maximum is kept). -/
def bestPair (ns : List Char) : List (List Char) → ℚ → List Char → ℚ × List Char
  | [], b, bs => (b, bs)
  | s :: rest, b, bs =>
    if b < calculate_similarity ns s then bestPair ns rest (calculate_similarity ns s) s
    else bestPair ns rest b bs

/-- The highest similarity of any candidate (0 when there are none). -/
def maxSimilarity (ns : List Char) (cands : List (List Char)) : ℚ :=
  cands.foldr (fun s m => max (calculate_similarity ns s) m) 0

lemma candList_nil : candList [] = [] := rfl

lemma candList_cons (r : List Char) (raw : List (List Char)) :
    candList (r :: raw) =
      if 10 ≤ (stripChars r).length then stripChars r :: candList raw
      else candList raw := by
  simp only [candList, List.map_cons, List.filter_cons]
  by_cases h : 10 ≤ (stripChars r).length <;> simp [h]

lemma similarity_nonneg (a b : List Char) : 0 ≤ calculate_similarity a b := by
  rw [calculate_similarity]
  split
  · exact le_refl 0
  · positivity

lemma bestPair_fst (ns : List Char) (cands : List (List Char)) (b : ℚ) (bs : List Char)
    (hb : 0 ≤ b) :
    (bestPair ns cands b bs).1 = max b (maxSimilarity ns cands) := by
  induction cands generalizing b bs with
  | nil => simp [bestPair, maxSimilarity, max_eq_left hb]
  | cons s rest ih =>
    rw [bestPair, maxSimilarity, List.foldr_cons]
    by_cases h : b < calculate_similarity ns s
    · rw [if_pos h, ih _ s (similarity_nonneg ns s)]
      exact (max_eq_right (le_trans h.le (le_max_left _ _))).symm
    · rw [if_neg h, ih b bs hb, ← max_assoc, max_eq_left (not_lt.1 h)]
      rfl

lemma bestPair_snd_of_all_le (ns : List Char) (cands : List (List Char))
    (b : ℚ) (bs : List Char) (h : ∀ x ∈ cands, calculate_similarity ns x ≤ b) :
    bestPair ns cands b bs = (b, bs) := by
  induction cands with
  | nil => rfl
  | cons s rest ih =>
    rw [bestPair, if_neg (not_lt.2 (h s (List.mem_cons_self s rest)))]
    exact ih (fun x hx => h x (List.mem_cons_of_mem s hx))

lemma maxSimilarity_is_ub (ns : List Char) (cands : List (List Char)) :
    ∀ x ∈ cands, calculate_similarity ns x ≤ maxSimilarity ns cands := by
  induction cands with
  | nil => intro x hx; cases hx
  | cons s rest ih =>
    intro x hx
    rw [maxSimilarity, List.foldr_cons]
    rcases List.mem_cons.1 hx with rfl | hx
    · exact le_max_left _ _
    · exact le_trans (ih x hx) (le_max_right _ _)

lemma bestPair_snd_first_attainer (ns : List Char) (cands : List (List Char))
    (M : ℚ) (hub : ∀ x ∈ cands, calculate_similarity ns x ≤ M) :
    ∀ j (hj : j < cands.length) (b : ℚ) (bs : List Char),
      calculate_similarity ns (cands.get ⟨j, hj⟩) = M →
      (∀ i (hi : i < j), calculate_similarity ns (cands.get ⟨i, by omega⟩) < M) →
      b < M →
      (bestPair ns cands b bs).2 = cands.get ⟨j, hj⟩ := by
  induction cands with
  | nil =>
    intro j hj
    simp at hj
  | cons s rest ih =>
    intro j hj b bs hjM hfirst hb
    cases j with
    | zero =>
      have hs : calculate_similarity ns s = M := hjM
      show (bestPair ns (s :: rest) b bs).2 = s
      rw [bestPair, if_pos (hs ▸ hb), hs]
      rw [bestPair_snd_of_all_le ns rest M s
        (fun x hx => hub x (List.mem_cons_of_mem s hx))]
    | succ k =>
      have hs : calculate_similarity ns s < M := hfirst 0 (Nat.succ_pos k)
      have hj' : k < rest.length := Nat.lt_of_succ_lt_succ (by simpa using hj)
      have hub' : ∀ x ∈ rest, calculate_similarity ns x ≤ M :=
        fun x hx => hub x (List.mem_cons_of_mem s hx)
      have hjM' : calculate_similarity ns (rest.get ⟨k, hj'⟩) = M := hjM
      have hfirst' : ∀ i (hi : i < k),
          calculate_similarity ns (rest.get ⟨i, by omega⟩) < M :=
        fun i hi => hfirst (i + 1) (by omega)
      show (bestPair ns (s :: rest) b bs).2 = rest.get ⟨k, hj'⟩
      rw [bestPair]
      by_cases h : b < calculate_similarity ns s
      · rw [if_pos h]
        exact ih hub' k hj' (calculate_similarity ns s) s hjM' hfirst' hs
      · rw [if_neg h]
        exact ih hub' k hj' b bs hjM' hfirst' hb

/-! ### The stable descending sort used for suggestions -/

lemma insertDesc_perm (x : ℚ × List Char) (l : List (ℚ × List Char)) :
    List.Perm (insertDesc x l) (x :: l) := by
  induction l with
  | nil => exact List.Perm.refl _
  | cons y ys ih =>
    rw [insertDesc]
    by_cases h : x.1 < y.1
    · rw [if_pos h]
      exact (ih.cons y).trans (List.Perm.swap x y ys)
    · rw [if_neg h]

lemma sortDesc_perm (l : List (ℚ × List Char)) : List.Perm (sortDesc l) l := by
  induction l with
  | nil => exact List.Perm.refl _
  | cons x xs ih => exact (insertDesc_perm x (sortDesc xs)).trans (ih.cons x)

lemma insertDesc_pairwise (x : ℚ × List Char) (l : List (ℚ × List Char))
    (h : l.Pairwise (fun a b => b.1 ≤ a.1)) :
    (insertDesc x l).Pairwise (fun a b => b.1 ≤ a.1) := by
  induction l with
  | nil => simp [insertDesc]
  | cons y ys ih =>
    rw [List.pairwise_cons] at h
    rw [insertDesc]
    by_cases hxy : x.1 < y.1
    · rw [if_pos hxy]
      rw [List.pairwise_cons]
      refine ⟨?_, ih h.2⟩
      intro z hz
      rcases List.mem_cons.1 ((insertDesc_perm x ys).mem_iff.1 hz) with rfl | hz'
      · exact hxy.le
      · exact h.1 z hz'
    · rw [if_neg hxy]
      rw [List.pairwise_cons]
      refine ⟨?_, List.pairwise_cons.2 h⟩
      intro z hz
      rcases List.mem_cons.1 hz with rfl | hz
      · exact not_lt.1 hxy
      · exact le_trans (h.1 z hz) (not_lt.1 hxy)

lemma sortDesc_pairwise (l : List (ℚ × List Char)) :
    (sortDesc l).Pairwise (fun a b => b.1 ≤ a.1) := by
  induction l with
  | nil => simp [sortDesc]
  | cons x xs ih => exact insertDesc_pairwise x (sortDesc xs) ih

/-! ### Behaviour of the fuzzy-path loop -/

lemma collectSug_nil (ns : List Char) : collectSug ns [] = [] := rfl

lemma collectSug_cons (ns s : List Char) (cands : List (List Char)) :
    collectSug ns (s :: cands) =
      (if (1 : ℚ)/2 ≤ calculate_similarity ns s then
        [(render2 (calculate_similarity ns s), s.take 100)] else []) ++
        collectSug ns cands := by
  rw [collectSug, List.filterMap_cons]
  by_cases h : (1 : ℚ)/2 ≤ calculate_similarity ns s
  · rw [if_pos h, if_pos h]
    rfl
  · rw [if_neg h, if_neg h]
    rfl

lemma findLoop_no_hit (ns : List Char) (θ : ℚ) (raw : List (List Char)) :
    ∀ (b : ℚ) (bs : List Char) (sg : List (ℚ × List Char)),
      (∀ x ∈ candList raw, calculate_similarity ns x < θ) →
      findLoop ns θ raw b bs sg =
        ⟨false, (bestPair ns (candList raw) b bs).1,
          (bestPair ns (candList raw) b bs).2,
          (sortDesc (sg ++ collectSug ns (candList raw))).take 3⟩ := by
  induction raw with
  | nil =>
    intro b bs sg _
    simp [findLoop, candList_nil, bestPair, collectSug_nil]
  | cons r raw ih =>
    intro b bs sg hall
    rw [candList_cons] at hall ⊢
    by_cases hlen : 10 ≤ (stripChars r).length
    · rw [if_pos hlen] at hall ⊢
      have hr : calculate_similarity ns (stripChars r) < θ :=
        hall (stripChars r) (List.mem_cons_self _ _)
      have hrest : ∀ x ∈ candList raw, calculate_similarity ns x < θ :=
        fun x hx => hall x (List.mem_cons_of_mem _ hx)
      rw [findLoop, if_neg (by omega), if_neg (not_le.2 hr), ih _ _ _ hrest]
      rw [bestPair, collectSug_cons]
      simp only [MatchResult.mk.injEq]
      refine ⟨trivial, ?_, ?_, ?_⟩
      · by_cases hb : b < calculate_similarity ns (stripChars r)
        · rw [if_pos hb, if_pos hb, if_pos hb]
        · rw [if_neg hb, if_neg hb, if_neg hb]
      · by_cases hb : b < calculate_similarity ns (stripChars r)
        · rw [if_pos hb, if_pos hb, if_pos hb]
        · rw [if_neg hb, if_neg hb, if_neg hb]
      · by_cases hhalf : (1 : ℚ)/2 ≤ calculate_similarity ns (stripChars r)
        · rw [if_pos hhalf, if_pos hhalf, List.append_assoc]
        · rw [if_neg hhalf, if_neg hhalf, List.nil_append]
    · rw [if_neg hlen] at hall ⊢
      rw [findLoop, if_pos (by omega)]
      exact ih _ _ _ hall

lemma findLoop_first_hit (ns : List Char) (θ : ℚ) (raw : List (List Char)) :
    ∀ (pre : List (List Char)) (s : List Char) (post : List (List Char))
      (b : ℚ) (bs : List Char) (sg : List (ℚ × List Char)),
      candList raw = pre ++ s :: post →
      (∀ x ∈ pre, calculate_similarity ns x < θ) →
      θ ≤ calculate_similarity ns s →
      findLoop ns θ raw b bs sg =
        ⟨true, calculate_similarity ns s, s, sg ++ collectSug ns (pre ++ [s])⟩ := by
  induction raw with
  | nil =>
    intro pre s post b bs sg hcand
    rw [candList_nil] at hcand
    cases pre <;> simp at hcand
  | cons r raw ih =>
    intro pre s post b bs sg hcand hpre hs
    rw [candList_cons] at hcand
    by_cases hlen : 10 ≤ (stripChars r).length
    · rw [if_pos hlen] at hcand
      rw [findLoop, if_neg (by omega)]
      cases pre with
      | nil =>
        simp only [List.nil_append] at hcand
        obtain ⟨rfl, _⟩ := List.cons_eq_cons.1 hcand
        rw [if_pos hs, List.nil_append, collectSug_cons, collectSug_nil]
        by_cases hhalf : (1 : ℚ)/2 ≤ calculate_similarity ns (stripChars r)
        · rw [if_pos hhalf, if_pos hhalf, List.append_nil]
        · rw [if_neg hhalf, if_neg hhalf]
          simp only [List.nil_append, List.append_nil]
      | cons p0 pre' =>
        simp only [List.cons_append] at hcand
        obtain ⟨rfl, hcand'⟩ := List.cons_eq_cons.1 hcand
        have hp0 : calculate_similarity ns (stripChars r) < θ :=
          hpre (stripChars r) (List.mem_cons_self _ _)
        have hpre' : ∀ x ∈ pre', calculate_similarity ns x < θ :=
          fun x hx => hpre x (List.mem_cons_of_mem _ hx)
        rw [if_neg (not_le.2 hp0), ih pre' s post _ _ _ hcand' hpre' hs]
        rw [List.cons_append, collectSug_cons]
        by_cases hhalf : (1 : ℚ)/2 ≤ calculate_similarity ns (stripChars r)
        · rw [if_pos hhalf, if_pos hhalf, List.append_assoc]
        · rw [if_neg hhalf, if_neg hhalf, List.nil_append]
    · rw [if_neg hlen] at hcand
      rw [findLoop, if_pos (by omega)]
      exact ih pre s post _ _ _ hcand hpre hs

lemma maxSimilarity_nonneg (ns : List Char) (cands : List (List Char)) :
    0 ≤ maxSimilarity ns cands := by
  induction cands with
  | nil => exact le_refl 0
  | cons s rest ih =>
    rw [maxSimilarity, List.foldr_cons]
    exact le_trans ih (le_max_right _ _)

/-- C2: on the fuzzy path (normalized quotation not a substring of the
normalized document) the candidates are the pieces of the original document
split on `[.!?]+`, stripped, with pieces shorter than 10 characters
discarded; the first candidate in document order whose similarity to the
normalized quotation reaches the threshold causes an immediate return with
`found=true`, the similarity of that candidate as score and that candidate
(untruncated) as context, regardless of what follows it. -/
theorem find_text_fuzzy_first_match (q c : List Char) (θ : ℚ)
    (hn : ¬ normalize_text q <:+: normalize_text c)
    (pre : List (List Char)) (s : List Char) (post : List (List Char))
    (hcand : candidates c = pre ++ s :: post)
    (hpre : ∀ x ∈ pre, calculate_similarity (normalize_text q) x < θ)
    (hs : θ ≤ calculate_similarity (normalize_text q) s) :
    find_text_in_content q c θ =
      ⟨true, calculate_similarity (normalize_text q) s, s,
        collectSug (normalize_text q) (pre ++ [s])⟩ := by
  rw [find_text_in_content, (substrPos_eq_none_iff _ _).2 hn]
  rw [findLoop_first_hit (normalize_text q) θ (splitRuns isSentenceDelim c)
    pre s post 0 [] [] hcand hpre hs]
  rw [List.nil_append]

/-- Witness for C2: with threshold 0.5, the first candidate scoring 0.5 is
returned even though a later candidate scores 1. -/
theorem find_text_fuzzy_first_match_witness :
    (¬ normalize_text "aa bb".toList <:+:
      normalize_text "bb cc aa dd. bb bb aa aa aa.".toList) ∧
    candidates "bb cc aa dd. bb bb aa aa aa.".toList =
      ["bb cc aa dd".toList, "bb bb aa aa aa".toList] ∧
    calculate_similarity (normalize_text "aa bb".toList) "bb bb aa aa aa".toList = 1 ∧
    find_text_in_content "aa bb".toList "bb cc aa dd. bb bb aa aa aa.".toList ((1 : ℚ)/2) =
      ⟨true, (1 : ℚ)/2, "bb cc aa dd".toList,
        [((1 : ℚ)/2, "bb cc aa dd".toList)]⟩ := by
  refine ⟨by decide, by decide, by with_unfolding_all decide, ?_⟩
  rw [find_text_fuzzy_first_match "aa bb".toList "bb cc aa dd. bb bb aa aa aa.".toList
    ((1 : ℚ)/2) (by decide) [] "bb cc aa dd".toList ["bb bb aa aa aa".toList]
    (by decide) (by intro x hx; cases hx) (by with_unfolding_all decide)]
  with_unfolding_all decide

/-- C3 (amended): when no candidate reaches the threshold, the result is
`found=false`, the score is the highest candidate similarity (0 when there
are no candidates), the context is the first candidate attaining that
highest similarity when it is positive — but the empty string whenever the
highest similarity is 0, even if candidates exist — and the suggestions are
the top 3 of the collected entries, stably sorted descending by score. -/
theorem find_text_fuzzy_no_match (q c : List Char) (θ : ℚ)
    (hn : ¬ normalize_text q <:+: normalize_text c)
    (hall : ∀ x ∈ candidates c, calculate_similarity (normalize_text q) x < θ) :
    (find_text_in_content q c θ).found = false ∧
    (find_text_in_content q c θ).score =
      maxSimilarity (normalize_text q) (candidates c) ∧
    (maxSimilarity (normalize_text q) (candidates c) = 0 →
      (find_text_in_content q c θ).context = []) ∧
    (∀ j (hj : j < (candidates c).length),
      calculate_similarity (normalize_text q) ((candidates c).get ⟨j, hj⟩) =
        maxSimilarity (normalize_text q) (candidates c) →
      (∀ i, ∀ hi : i < j,
        calculate_similarity (normalize_text q) ((candidates c).get ⟨i, by omega⟩) <
          maxSimilarity (normalize_text q) (candidates c)) →
      0 < maxSimilarity (normalize_text q) (candidates c) →
      (find_text_in_content q c θ).context = (candidates c).get ⟨j, hj⟩) ∧
    (find_text_in_content q c θ).suggestions =
      (sortDesc (collectSug (normalize_text q) (candidates c))).take 3 := by
  have heq : find_text_in_content q c θ =
      ⟨false, (bestPair (normalize_text q) (candidates c) 0 []).1,
        (bestPair (normalize_text q) (candidates c) 0 []).2,
        (sortDesc ([] ++ collectSug (normalize_text q) (candidates c))).take 3⟩ := by
    rw [find_text_in_content, (substrPos_eq_none_iff _ _).2 hn]
    exact findLoop_no_hit (normalize_text q) θ (splitRuns isSentenceDelim c) 0 [] [] hall
  rw [heq]
  refine ⟨rfl, ?_, ?_, ?_, by rw [List.nil_append]⟩
  · show (bestPair (normalize_text q) (candidates c) 0 []).1 = _
    rw [bestPair_fst _ _ 0 [] (le_refl 0)]
    exact max_eq_right (maxSimilarity_nonneg _ _)
  · intro h0
    show (bestPair (normalize_text q) (candidates c) 0 []).2 = []
    rw [bestPair_snd_of_all_le _ _ 0 []
      (fun x hx => h0 ▸ maxSimilarity_is_ub _ _ x hx)]
  · intro j hj hjM hfirst hpos
    exact bestPair_snd_first_attainer (normalize_text q) (candidates c)
      (maxSimilarity (normalize_text q) (candidates c))
      (maxSimilarity_is_ub _ _) j hj 0 [] hjM (fun i hi => hfirst i hi) hpos

/-- Witness for the amended C3 theorem at a concrete document with four
candidates, none reaching the threshold 0.8. -/
theorem find_text_fuzzy_no_match_witness :
    (find_text_in_content "aa bb".toList
      "bb cc aa dd. aa ee hh bb gg. bb ii aa jj. zz yy xx ww vv.".toList
      ((4 : ℚ)/5)).found = false ∧
    (find_text_in_content "aa bb".toList
      "bb cc aa dd. aa ee hh bb gg. bb ii aa jj. zz yy xx ww vv.".toList
      ((4 : ℚ)/5)).score = (1 : ℚ)/2 ∧
    (find_text_in_content "aa bb".toList
      "bb cc aa dd. aa ee hh bb gg. bb ii aa jj. zz yy xx ww vv.".toList
      ((4 : ℚ)/5)).context = "bb cc aa dd".toList ∧
    (find_text_in_content "aa bb".toList
      "bb cc aa dd. aa ee hh bb gg. bb ii aa jj. zz yy xx ww vv.".toList
      ((4 : ℚ)/5)).suggestions =
      [((1 : ℚ)/2, "bb cc aa dd".toList), ((1 : ℚ)/2, "bb ii aa jj".toList)] := by
  have h := find_text_fuzzy_no_match "aa bb".toList
    "bb cc aa dd. aa ee hh bb gg. bb ii aa jj. zz yy xx ww vv.".toList
    ((4 : ℚ)/5) (by decide) (by with_unfolding_all decide)
  refine ⟨h.1, ?_, ?_, ?_⟩
  · rw [h.2.1]
    with_unfolding_all decide
  · rw [h.2.2.2.1 0 (by decide) (by with_unfolding_all decide)
      (fun i hi => absurd hi (by omega)) (by with_unfolding_all decide)]
    decide
  · rw [h.2.2.2.2]
    with_unfolding_all decide

/-- Counterexample for C3 as stated: a document whose sole candidate
sentence scores 0 against the quotation.  The claim predicts the context is
that (best-scoring) candidate, but the code only replaces the initial empty
best sentence on a strict score improvement, so it returns the empty
string. -/
theorem find_text_context_zero_counterexample :
    find_text_in_content "aa".toList "bb cc dd ee ff.".toList ((4 : ℚ)/5) =
      ⟨false, 0, [], []⟩ ∧
    candidates "bb cc dd ee ff.".toList = ["bb cc dd ee ff".toList] ∧
    "bb cc dd ee ff".toList ≠ ([] : List Char) :=
  ⟨by with_unfolding_all decide, by decide, by decide⟩

lemma findLoop_found_false_suggestions (ns : List Char) (θ : ℚ)
    (raw : List (List Char)) :
    ∀ (b : ℚ) (bs : List Char) (sg : List (ℚ × List Char)),
      (findLoop ns θ raw b bs sg).found = false →
      ∃ l, (findLoop ns θ raw b bs sg).suggestions = (sortDesc l).take 3 := by
  induction raw with
  | nil => exact fun b bs sg _ => ⟨sg, rfl⟩
  | cons r raw ih =>
    intro b bs sg hf
    rw [findLoop] at hf ⊢
    by_cases hlen : (stripChars r).length < 10
    · rw [if_pos hlen] at hf ⊢
      exact ih _ _ _ hf
    · rw [if_neg hlen] at hf ⊢
      by_cases hthr : θ ≤ calculate_similarity ns (stripChars r)
      · rw [if_pos hthr] at hf
        simp at hf
      · rw [if_neg hthr] at hf ⊢
        exact ih _ _ _ hf

/-- C4 (amended): on the exact-match return the suggestion list is empty,
and on the `found=false` return it has at most 3 entries and is sorted in
non-increasing order of the embedded score.  (On the `found=true` early
return of the fuzzy path the list is the entries collected so far in
document order and may exceed 3 entries — see the counterexample.) -/
theorem find_text_suggestions_bounded (q c : List Char) (θ : ℚ) :
    ((find_text_in_content q c θ).found = false →
      (find_text_in_content q c θ).suggestions.length ≤ 3 ∧
      (find_text_in_content q c θ).suggestions.Pairwise (fun a b => b.1 ≤ a.1)) ∧
    (normalize_text q <:+: normalize_text c →
      (find_text_in_content q c θ).suggestions = []) := by
  constructor
  · intro hf
    cases hsub : substrPos (normalize_text q) (normalize_text c) with
    | some p =>
      have : (find_text_in_content q c θ).found = true := by
        rw [find_text_in_content, hsub]
      rw [hf] at this
      exact absurd this (by simp)
    | none =>
      have heq : find_text_in_content q c θ =
          findLoop (normalize_text q) θ (splitRuns isSentenceDelim c) 0 [] [] := by
        rw [find_text_in_content, hsub]
      rw [heq] at hf ⊢
      obtain ⟨l, hl⟩ := findLoop_found_false_suggestions (normalize_text q) θ
        (splitRuns isSentenceDelim c) 0 [] [] hf
      rw [hl]
      constructor
      · exact List.length_take_le 3 (sortDesc l)
      · exact (sortDesc_pairwise l).sublist (List.take_sublist 3 (sortDesc l))
  · intro hsub
    obtain ⟨p, hp⟩ := Option.isSome_iff_exists.1
      ((substrPos_isSome_iff _ _).2 ((exists_drop_iff_infixOf _ _).2 hsub))
    rw [find_text_in_content, hp]

/-- Witness for the amended C4 theorem: a not-found result with three
suggestions out of four collected, sorted, and an exact-match result with no
suggestions. -/
theorem find_text_suggestions_bounded_witness :
    (find_text_in_content "aa bb".toList
      "bb cc aa dd. aa ee hh bb gg. bb ii aa jj. zz yy xx ww vv.".toList
      ((4 : ℚ)/5)).found = false ∧
    (find_text_in_content "aa bb".toList
      "bb cc aa dd. aa ee hh bb gg. bb ii aa jj. zz yy xx ww vv.".toList
      ((4 : ℚ)/5)).suggestions.length ≤ 3 ∧
    (normalize_text "bb".toList <:+: normalize_text "aa bb cc".toList) ∧
    (find_text_in_content "bb".toList "aa bb cc".toList ((4 : ℚ)/5)).suggestions = [] := by
  have h1 := (find_text_suggestions_bounded "aa bb".toList
    "bb cc aa dd. aa ee hh bb gg. bb ii aa jj. zz yy xx ww vv.".toList ((4 : ℚ)/5)).1
    (by with_unfolding_all decide)
  have h2 := (find_text_suggestions_bounded "bb".toList "aa bb cc".toList ((4 : ℚ)/5)).2
    (by decide)
  exact ⟨by with_unfolding_all decide, h1.1, by decide, h2⟩

/-- Counterexample for C4 as stated: with the default threshold 0.8, four
sentences scoring 0.5 precede a sentence scoring 1, so the `found=true`
early return of the fuzzy path carries five suggestion entries — more than
the claimed maximum of 3. -/
theorem find_text_suggestions_overflow_counterexample :
    (find_text_in_content "aa bb".toList
      "bb cc aa dd. bb ee aa ff. bb gg aa hh. bb ii aa jj. bb bb aa aa aa.".toList
      ((4 : ℚ)/5)).found = true ∧
    (find_text_in_content "aa bb".toList
      "bb cc aa dd. bb ee aa ff. bb gg aa hh. bb ii aa jj. bb bb aa aa aa.".toList
      ((4 : ℚ)/5)).suggestions.length = 5 ∧
    ¬ (find_text_in_content "aa bb".toList
      "bb cc aa dd. bb ee aa ff. bb gg aa hh. bb ii aa jj. bb bb aa aa aa.".toList
      ((4 : ℚ)/5)).suggestions.length ≤ 3 := by
  refine ⟨?_, ?_, ?_⟩ <;> with_unfolding_all decide

lemma containsSub_eq_decide (n h : List Char) :
    containsSub n h = decide (n <:+: h) := by
  by_cases hin : n <:+: h
  · rw [(containsSub_iff n h).2 hin]
    exact (decide_eq_true hin).symm
  · have hne : containsSub n h ≠ true := fun hc => hin ((containsSub_iff _ _).1 hc)
    rw [Bool.eq_false_iff.2 hne]
    exact (decide_eq_false hin).symm

/-- The fraction of keywords occurring as contiguous substrings of the
normalized document — the relevance score the claim describes. -/
def relevanceScore (kws : List (List Char)) (content : List Char) : ℚ :=
  ((kws.countP fun k => decide (k <:+: normalize_text content)) : ℚ) /
    (kws.length : ℚ)

/-- C5: `check_disease_relevance` returns `(true, 1.0)` on an empty keyword
list; otherwise the score is the fraction of keywords occurring as
contiguous substrings of the normalized document, relevance holds iff the
score is at least 0.2, except that when the (nonempty) lowercased disease
name occurs as a substring of the normalized document, relevance is forced
to `true` and the score raised to `max(score, 0.8)`. -/
theorem check_disease_relevance_spec (kws : List (List Char))
    (name content : List Char) :
    check_disease_relevance kws name content =
      if kws = [] then (true, 1)
      else if name ≠ [] ∧ name.map lowerChar <:+: normalize_text content then
        (true, max (relevanceScore kws content) ((4 : ℚ)/5))
      else (decide ((1 : ℚ)/5 ≤ relevanceScore kws content),
        relevanceScore kws content) := by
  have hcount : (kws.filter fun k => containsSub k (normalize_text content)).length =
      kws.countP fun k => decide (k <:+: normalize_text content) := by
    rw [← List.countP_eq_length_filter]
    congr 1
    funext k
    rw [containsSub_eq_decide]
  have hguard :
      ((!name.isEmpty && containsSub (name.map lowerChar) (normalize_text content)) = true) ↔
        (name ≠ [] ∧ name.map lowerChar <:+: normalize_text content) := by
    cases name with
    | nil => simp [List.isEmpty]
    | cons c cs => simp [List.isEmpty, containsSub_iff]
  simp only [check_disease_relevance, relevanceScore]
  by_cases hk : kws = []
  · rw [if_pos (show kws.isEmpty = true by rw [hk]; rfl), if_pos hk]
  · rw [if_neg (show ¬ kws.isEmpty = true by simpa [List.isEmpty_iff] using hk),
      if_neg hk, hcount]
    exact if_congr hguard rfl rfl

/-- C6 (amended): similarity is symmetric and bounded by `[0, 1]`; it is 0
whenever either word-token set is empty — including for nonempty strings
that normalize to no tokens, such as a lone space, see the counterexample —
and otherwise it is the Jaccard index of the two token sets; on any string
with at least one token, the self-similarity is 1. -/
theorem calculate_similarity_props (a b : List Char) :
    calculate_similarity a b = calculate_similarity b a ∧
    0 ≤ calculate_similarity a b ∧
    calculate_similarity a b ≤ 1 ∧
    (wordSet a = ∅ ∨ wordSet b = ∅ → calculate_similarity a b = 0) ∧
    (wordSet a ≠ ∅ → wordSet b ≠ ∅ →
      calculate_similarity a b =
        ((wordSet a ∩ wordSet b).card : ℚ) / ((wordSet a ∪ wordSet b).card : ℚ)) ∧
    (wordSet a ≠ ∅ → calculate_similarity a a = 1) := by
  refine ⟨?_, ?_, ?_, ?_, ?_, ?_⟩
  · rw [calculate_similarity, calculate_similarity]
    rw [Finset.inter_comm, Finset.union_comm]
    exact if_congr or_comm rfl rfl
  · rw [calculate_similarity]
    split
    · exact le_refl 0
    · positivity
  · rw [calculate_similarity]
    split
    · exact zero_le_one
    · next hne =>
      push_neg at hne
      have hsub : wordSet a ∩ wordSet b ⊆ wordSet a ∪ wordSet b :=
        Finset.inter_subset_union
      have hpos : 0 < ((wordSet a ∪ wordSet b).card : ℚ) := by
        have : (wordSet a ∪ wordSet b).Nonempty :=
          Finset.Nonempty.mono Finset.subset_union_left
            (Finset.nonempty_iff_ne_empty.2 hne.1)
        exact_mod_cast Finset.card_pos.2 this
      exact div_le_one_of_le₀ (by exact_mod_cast Finset.card_le_card hsub) hpos.le
  · intro h
    rw [calculate_similarity, if_pos h]
  · intro ha hb
    rw [calculate_similarity, if_neg (by push_neg; exact ⟨ha, hb⟩)]
  · intro ha
    rw [calculate_similarity, if_neg (by push_neg; exact ⟨ha, ha⟩)]
    rw [Finset.inter_self, Finset.union_self]
    have hpos : 0 < (wordSet a).card :=
      Finset.card_pos.2 (Finset.nonempty_iff_ne_empty.2 ha)
    have hne : ((wordSet a).card : ℚ) ≠ 0 := by
      exact_mod_cast Nat.pos_iff_ne_zero.1 hpos
    exact div_self hne

/-- Witness for the amended C6 theorem: the self-similarity of a string with
tokens is 1, and similarity is symmetric on a concrete pair. -/
theorem calculate_similarity_props_witness :
    wordSet "aa bb".toList ≠ ∅ ∧
    calculate_similarity "aa bb".toList "aa bb".toList = 1 ∧
    calculate_similarity "aa bb".toList "bb cc".toList =
      calculate_similarity "bb cc".toList "aa bb".toList := by
  have h6 := (calculate_similarity_props "aa bb".toList "aa bb".toList).2.2.2.2.2
    (by decide)
  exact ⟨by decide, h6,
    (calculate_similarity_props "aa bb".toList "bb cc".toList).1⟩

/-- Counterexample for C6 as stated: a lone space is a nonempty string, but
its token set is empty, so its self-similarity is 0, not 1. -/
theorem calculate_similarity_self_counterexample :
    " ".toList ≠ ([] : List Char) ∧
    calculate_similarity " ".toList " ".toList = 0 ∧
    (0 : ℚ) ≠ 1 :=
  ⟨by decide, by with_unfolding_all decide, zero_ne_one⟩

/-- C7 (amended): for an unsupported reference scheme (neither `PMID:` nor
`http` leads the reference) `validate_supporting_text` returns a
`found=false` result with the diagnostic string
`"Only PMID and URL references supported"` — not the claimed
`"Only PMID/URL references supported"` — and no score, without consulting
the content source; when the content source yields no content it returns
`found=false` with `"Could not fetch content"` and no score.  The embedding
is a total function, so neither path raises. -/
theorem validate_supporting_text_errors (kws : List (List Char))
    (name : List Char) (fetch : List Char → Option (List Char))
    (text reference : List Char) :
    (¬ ("PMID:".toList <+: reference ∨ "http".toList <+: reference) →
      validate_supporting_text kws name fetch text reference =
        ⟨[], [], text, reference, false, none, none, none,
          some "Only PMID and URL references supported".toList, none, none⟩) ∧
    (("PMID:".toList <+: reference ∨ "http".toList <+: reference) →
      fetch reference = none →
      validate_supporting_text kws name fetch text reference =
        ⟨[], [], text, reference, false, none, none, none,
          some "Could not fetch content".toList, none, none⟩) := by
  have hcond :
      (("PMID:".toList.isPrefixOf reference || "http".toList.isPrefixOf reference) = true) ↔
        ("PMID:".toList <+: reference ∨ "http".toList <+: reference) := by
    rw [Bool.or_eq_true, isPrefixOf_true_iff, isPrefixOf_true_iff]
  constructor
  · intro h
    rw [validate_supporting_text,
      if_pos (by simp only [Bool.not_eq_eq_eq_not, Bool.not_true,
        Bool.eq_false_iff]; exact fun hc => h (hcond.1 hc))]
  · intro h hfetch
    rw [validate_supporting_text,
      if_neg (by simp only [Bool.not_eq_eq_eq_not, Bool.not_true, Bool.eq_false_iff,
        ne_eq, not_not]; exact hcond.2 h), hfetch]

/-- Witness for the amended C7 theorem: a DOI-style reference is rejected
with the diagnostic string, and a PMID reference whose fetch yields nothing
produces the fetch diagnostic; both carry `found=false` and no score. -/
theorem validate_supporting_text_errors_witness :
    validate_supporting_text [] [] (fun _ => none) "tt".toList "DOI:10.1/x".toList =
      ⟨[], [], "tt".toList, "DOI:10.1/x".toList, false, none, none, none,
        some "Only PMID and URL references supported".toList, none, none⟩ ∧
    validate_supporting_text [] [] (fun _ => none) "tt".toList "PMID:123".toList =
      ⟨[], [], "tt".toList, "PMID:123".toList, false, none, none, none,
        some "Could not fetch content".toList, none, none⟩ :=
  ⟨(validate_supporting_text_errors [] [] (fun _ => none) "tt".toList
      "DOI:10.1/x".toList).1 (by decide),
   (validate_supporting_text_errors [] [] (fun _ => none) "tt".toList
      "PMID:123".toList).2 (by decide) rfl⟩

/-- Counterexample for C7 as stated: the diagnostic string in cli.py is
`"Only PMID and URL references supported"`, not the
`"Only PMID/URL references supported"` the claim quotes. -/
theorem validate_supporting_text_error_string_counterexample :
    (validate_supporting_text [] [] (fun _ => none) "tt".toList
      "DOI:10.1/x".toList).error =
      some "Only PMID and URL references supported".toList ∧
    (validate_supporting_text [] [] (fun _ => none) "tt".toList
      "DOI:10.1/x".toList).error ≠
      some "Only PMID/URL references supported".toList :=
  ⟨by decide, by decide⟩

/-- C8 (amended): two `validate_doi` calls for the same DOI perform exactly
one external lookup between them (1 on the miss, 0 on the memoized hit),
and the memoized result agrees with the first on `valid`,
`retrieved_title`, `error` and the identity fields; after a successful
lookup the two results are fully equal, but after a failed lookup the
first call returns `title_match = none` while the memoized call recomputes
it from the cached absent title and returns `title_match = some false`. -/
theorem validate_doi_memoization (lookup : List Char → DOILookup)
    (cache : List (List Char × CacheEntry)) (mname doi : List Char)
    (hmiss : cacheFind cache doi = none) :
    (validate_doi lookup cache mname doi).2.2 = 1 ∧
    (validate_doi lookup (validate_doi lookup cache mname doi).2.1 mname doi).2.2 = 0 ∧
    (validate_doi lookup (validate_doi lookup cache mname doi).2.1 mname doi).1.valid =
      (validate_doi lookup cache mname doi).1.valid ∧
    (validate_doi lookup (validate_doi lookup cache mname doi).2.1 mname doi).1.retrieved_title =
      (validate_doi lookup cache mname doi).1.retrieved_title ∧
    (validate_doi lookup (validate_doi lookup cache mname doi).2.1 mname doi).1.error =
      (validate_doi lookup cache mname doi).1.error ∧
    (∀ t, lookup doi = DOILookup.ok t →
      (validate_doi lookup (validate_doi lookup cache mname doi).2.1 mname doi).1 =
        (validate_doi lookup cache mname doi).1) ∧
    (∀ s, lookup doi = DOILookup.httpError s →
      (validate_doi lookup cache mname doi).1.title_match = none ∧
      (validate_doi lookup (validate_doi lookup cache mname doi).2.1 mname doi).1.title_match =
        some false) ∧
    (∀ m, lookup doi = DOILookup.exn m →
      (validate_doi lookup cache mname doi).1.title_match = none ∧
      (validate_doi lookup (validate_doi lookup cache mname doi).2.1 mname doi).1.title_match =
        some false) := by
  have hhit : ∀ e : CacheEntry, cacheFind ((doi, e) :: cache) doi = some e := by
    intro e
    rw [cacheFind, if_pos rfl]
  cases hl : lookup doi with
  | ok t =>
    refine ⟨?_, ?_, ?_, ?_, ?_, ?_, ?_, ?_⟩ <;>
      simp [validate_doi, hmiss, hl, hhit, check_title_match]
  | httpError s =>
    refine ⟨?_, ?_, ?_, ?_, ?_, ?_, ?_, ?_⟩ <;>
      simp [validate_doi, hmiss, hl, hhit, check_title_match]
  | exn m =>
    refine ⟨?_, ?_, ?_, ?_, ?_, ?_, ?_, ?_⟩ <;>
      simp [validate_doi, hmiss, hl, hhit, check_title_match]

/-- Witness for the amended C8 theorem: a successful lookup is performed
once and memoized, with the second call equal to the first. -/
theorem validate_doi_memoization_witness :
    (validate_doi (fun _ => DOILookup.ok (some "some title".toList)) []
      "mm".toList "10.1/x".toList).2.2 = 1 ∧
    (validate_doi (fun _ => DOILookup.ok (some "some title".toList))
      (validate_doi (fun _ => DOILookup.ok (some "some title".toList)) []
        "mm".toList "10.1/x".toList).2.1 "mm".toList "10.1/x".toList).2.2 = 0 ∧
    (validate_doi (fun _ => DOILookup.ok (some "some title".toList))
      (validate_doi (fun _ => DOILookup.ok (some "some title".toList)) []
        "mm".toList "10.1/x".toList).2.1 "mm".toList "10.1/x".toList).1 =
      (validate_doi (fun _ => DOILookup.ok (some "some title".toList)) []
        "mm".toList "10.1/x".toList).1 := by
  have h := validate_doi_memoization (fun _ => DOILookup.ok (some "some title".toList))
    [] "mm".toList "10.1/x".toList rfl
  exact ⟨h.1, h.2.1, h.2.2.2.2.2.1 (some "some title".toList) rfl⟩

/-- Counterexample for C8 as stated: after a failed lookup (HTTP 404), the
first call returns `title_match = none` but the memoized second call
returns `title_match = some false`, so the two results are not equal. -/
theorem validate_doi_memoization_counterexample :
    (validate_doi (fun _ => DOILookup.httpError 404) [] "mm".toList
      "10.1/x".toList).1.title_match = none ∧
    (validate_doi (fun _ => DOILookup.httpError 404)
      (validate_doi (fun _ => DOILookup.httpError 404) [] "mm".toList
        "10.1/x".toList).2.1 "mm".toList "10.1/x".toList).1.title_match =
      some false ∧
    (validate_doi (fun _ => DOILookup.httpError 404)
      (validate_doi (fun _ => DOILookup.httpError 404) [] "mm".toList
        "10.1/x".toList).2.1 "mm".toList "10.1/x".toList).1 ≠
      (validate_doi (fun _ => DOILookup.httpError 404) [] "mm".toList
        "10.1/x".toList).1 :=
  ⟨by decide, by decide, by decide⟩

/-- C9 (amended): the two `find_text_in_content` implementations (cli.py and
validator.py) agree whenever the normalized quotation is a substring of the
normalized document: both report `found=true` with score 1, for any pair of
thresholds.  (Off the exact path they can disagree — see the
counterexample.) -/
theorem find_text_adapters_agree_on_exact (q c : List Char) (θ₁ θ₂ : ℚ)
    (h : normalize_text q <:+: normalize_text c) :
    (find_text_in_content q c θ₁).found = true ∧
    (find_text_in_content q c θ₁).score = 1 ∧
    find_text_in_contentV q c θ₂ = (true, 1) := by
  obtain ⟨p, hp⟩ := Option.isSome_iff_exists.1
    ((substrPos_isSome_iff _ _).2 ((exists_drop_iff_infixOf _ _).2 h))
  have hcli : find_text_in_content q c θ₁ =
      ⟨true, 1, stripChars (((c.drop (p - 100)).take
        (min c.length (p + q.length + 100) - (p - 100)))), []⟩ := by
    rw [find_text_in_content, hp]
  have hv : containsSub (normalize_text q) (normalize_text c) = true :=
    (containsSub_iff _ _).2 h
  refine ⟨by rw [hcli], by rw [hcli], ?_⟩
  rw [find_text_in_contentV, if_pos hv]

/-- Witness for the amended C9 theorem at a concrete exact match, with the
two default thresholds. -/
theorem find_text_adapters_agree_on_exact_witness :
    (normalize_text "bb".toList <:+: normalize_text "aa bb cc".toList) ∧
    (find_text_in_content "bb".toList "aa bb cc".toList ((4 : ℚ)/5)).found = true ∧
    find_text_in_contentV "bb".toList "aa bb cc".toList ((7 : ℚ)/10) = (true, 1) := by
  have h := find_text_adapters_agree_on_exact "bb".toList "aa bb cc".toList
    ((4 : ℚ)/5) ((7 : ℚ)/10) (by decide)
  exact ⟨by decide, h.1, h.2.2⟩

/-- Counterexample for C9 as stated: at their own default thresholds (0.8 in
cli.py, 0.7 in validator.py) the two implementations disagree on `found`
for a document whose only candidate sentence scores 0.75. -/
theorem find_text_adapters_disagree_counterexample :
    (find_text_in_content "alpha beta gamma".toList
      "delta gamma beta alpha.".toList ((4 : ℚ)/5)).found = false ∧
    (find_text_in_content "alpha beta gamma".toList
      "delta gamma beta alpha.".toList ((4 : ℚ)/5)).score = (3 : ℚ)/4 ∧
    find_text_in_contentV "alpha beta gamma".toList
      "delta gamma beta alpha.".toList ((7 : ℚ)/10) = (true, (3 : ℚ)/4) := by
  refine ⟨?_, ?_, ?_⟩ <;> with_unfolding_all decide

/-! ### Conditional idempotence of normalization (for C10) -/

/-- The ASCII uppercase letters, the only characters `lowerChar` moves. -/
def upperChars : List Char :=
  ['A', 'B', 'C', 'D', 'E', 'F', 'G', 'H', 'I', 'J', 'K', 'L', 'M',
   'N', 'O', 'P', 'Q', 'R', 'S', 'T', 'U', 'V', 'W', 'X', 'Y', 'Z']

lemma lowerChar_not_upper (c : Char) (h : c ∉ upperChars) : lowerChar c = c := by
  simp only [upperChars, List.mem_cons, not_or] at h
  obtain ⟨n1, n2, n3, n4, n5, n6, n7, n8, n9, n10, n11, n12, n13, n14, n15,
    n16, n17, n18, n19, n20, n21, n22, n23, n24, n25, n26, -⟩ := h
  rw [lowerChar, if_neg n1, if_neg n2, if_neg n3, if_neg n4, if_neg n5,
    if_neg n6, if_neg n7, if_neg n8, if_neg n9, if_neg n10, if_neg n11,
    if_neg n12, if_neg n13, if_neg n14, if_neg n15, if_neg n16, if_neg n17,
    if_neg n18, if_neg n19, if_neg n20, if_neg n21, if_neg n22, if_neg n23,
    if_neg n24, if_neg n25, if_neg n26]

lemma isSpace_lowerChar (c : Char) : isSpace (lowerChar c) = isSpace c := by
  by_cases hu : c ∈ upperChars
  · fin_cases hu <;> decide
  · rw [lowerChar_not_upper c hu]

lemma lowerChar_idem (c : Char) : lowerChar (lowerChar c) = lowerChar c := by
  by_cases hu : c ∈ upperChars
  · fin_cases hu <;> decide
  · rw [lowerChar_not_upper c hu, lowerChar_not_upper c hu]

lemma lowerChar_space : lowerChar ' ' = ' ' := by decide

lemma map_lowerChar_idem (l : List Char) :
    (l.map lowerChar).map lowerChar = l.map lowerChar := by
  rw [List.map_map]
  exact List.map_congr_left (fun c _ => lowerChar_idem c)

lemma dropWhile_isSpace_map_lowerChar (l : List Char) :
    (l.map lowerChar).dropWhile isSpace = (l.dropWhile isSpace).map lowerChar := by
  induction l with
  | nil => rfl
  | cons c t ih =>
    rw [List.map_cons, List.dropWhile_cons, List.dropWhile_cons, isSpace_lowerChar]
    by_cases h : isSpace c
    · rw [if_pos h, if_pos h, ih]
    · rw [if_neg h, if_neg h, List.map_cons]

lemma stripChars_map_lowerChar (l : List Char) :
    stripChars (l.map lowerChar) = (stripChars l).map lowerChar := by
  rw [stripChars, stripChars, dropWhile_isSpace_map_lowerChar, ← List.map_reverse,
    dropWhile_isSpace_map_lowerChar, ← List.map_reverse]

lemma collapseWs_map_lowerChar (l : List Char) :
    collapseWs (l.map lowerChar) = (collapseWs l).map lowerChar := by
  induction l with
  | nil => rfl
  | cons c t ih =>
    cases t with
    | nil =>
      show collapseWs [lowerChar c] = (collapseWs [c]).map lowerChar
      rw [collapseWs, collapseWs, isSpace_lowerChar]
      by_cases h : isSpace c
      · rw [if_pos h, if_pos h]
        rfl
      · rw [if_neg h, if_neg h]
        rfl
    | cons d t' =>
      have ihm : collapseWs (lowerChar d :: t'.map lowerChar) =
          (collapseWs (d :: t')).map lowerChar := ih
      show collapseWs (lowerChar c :: lowerChar d :: t'.map lowerChar) =
        (collapseWs (c :: d :: t')).map lowerChar
      rw [collapseWs, collapseWs, isSpace_lowerChar, isSpace_lowerChar]
      by_cases hc : isSpace c
      · by_cases hd : isSpace d
        · rw [if_pos hc, if_pos hc, if_pos hd, if_pos hd]
          exact ihm
        · rw [if_pos hc, if_pos hc, if_neg hd, if_neg hd, List.map_cons,
            lowerChar_space, ihm]
      · rw [if_neg hc, if_neg hc, List.map_cons, ihm]

lemma head?_dropWhile_not (p : Char → Bool) (l : List Char) :
    ∀ x, (l.dropWhile p).head? = some x → p x = false := by
  induction l with
  | nil => intro x hx; cases hx
  | cons c t ih =>
    intro x hx
    rw [List.dropWhile_cons] at hx
    by_cases hp : p c
    · rw [if_pos hp] at hx
      exact ih x hx
    · rw [if_neg hp] at hx
      cases hx
      exact Bool.eq_false_iff.2 hp

lemma getLast?_dropWhile_of_ne_nil (p : Char → Bool) (l : List Char)
    (h : l.dropWhile p ≠ []) : (l.dropWhile p).getLast? = l.getLast? := by
  induction l with
  | nil => exact absurd rfl h
  | cons c t ih =>
    rw [List.dropWhile_cons]
    rw [List.dropWhile_cons] at h
    by_cases hp : p c
    · rw [if_pos hp] at h ⊢
      have ht : t ≠ [] := by
        intro he
        rw [he] at h
        exact h rfl
      rw [ih h]
      cases t with
      | nil => exact absurd rfl ht
      | cons d t' => rw [List.getLast?_cons_cons]
    · rw [if_neg hp]

lemma collapseWs_ne_nil (l : List Char) (h : l ≠ []) : collapseWs l ≠ [] := by
  induction l with
  | nil => exact absurd rfl h
  | cons c t ih =>
    cases t with
    | nil =>
      rw [collapseWs]
      by_cases hsp : isSpace c
      · rw [if_pos hsp]
        exact List.cons_ne_nil _ _
      · rw [if_neg hsp]
        exact List.cons_ne_nil _ _
    | cons d t' =>
      rw [collapseWs]
      by_cases hc : isSpace c
      · by_cases hd : isSpace d
        · rw [if_pos hc, if_pos hd]
          exact ih (List.cons_ne_nil _ _)
        · rw [if_pos hc, if_neg hd]
          exact List.cons_ne_nil _ _
      · rw [if_neg hc]
        exact List.cons_ne_nil _ _

lemma collapseWs_head_of_not_space (d : Char) (t : List Char)
    (hd : ¬ isSpace d = true) : ∃ z, collapseWs (d :: t) = d :: z := by
  cases t with
  | nil =>
    rw [collapseWs, if_neg hd]
    exact ⟨[], rfl⟩
  | cons e t2 =>
    rw [collapseWs, if_neg hd]
    exact ⟨collapseWs (e :: t2), rfl⟩

lemma head?_collapseWs_not_space (l : List Char)
    (h : ∀ x, l.head? = some x → isSpace x = false) :
    ∀ x, (collapseWs l).head? = some x → isSpace x = false := by
  cases l with
  | nil => intro x hx; cases hx
  | cons c t =>
    have hc : isSpace c = false := h c rfl
    obtain ⟨z, hz⟩ := collapseWs_head_of_not_space c t (by rw [hc]; exact Bool.false_ne_true)
    rw [hz]
    intro x hx
    cases hx
    exact hc

lemma getLast?_collapseWs_not_space (l : List Char)
    (h : ∀ x, l.getLast? = some x → isSpace x = false) :
    ∀ x, (collapseWs l).getLast? = some x → isSpace x = false := by
  induction l with
  | nil => intro x hx; cases hx
  | cons c t ih =>
    cases t with
    | nil =>
      by_cases hsp : isSpace c
      · exact absurd (h c rfl) (by rw [hsp]; decide)
      · rw [collapseWs, if_neg hsp]
        intro x hx
        cases hx
        exact Bool.eq_false_iff.2 hsp
    | cons d t' =>
      have h' : ∀ x, (d :: t').getLast? = some x → isSpace x = false := by
        intro x hx
        exact h x (by rw [List.getLast?_cons_cons]; exact hx)
      rw [collapseWs]
      by_cases hc : isSpace c
      · by_cases hd : isSpace d
        · rw [if_pos hc, if_pos hd]
          exact ih h'
        · rw [if_pos hc, if_neg hd]
          have hz : collapseWs (d :: t') ≠ [] :=
            collapseWs_ne_nil _ (List.cons_ne_nil _ _)
          intro x hx
          apply ih h' x
          cases hcw : collapseWs (d :: t') with
          | nil => exact absurd hcw hz
          | cons w z' =>
            rw [hcw, List.getLast?_cons_cons] at hx
            exact hx
      · rw [if_neg hc]
        have hz : collapseWs (d :: t') ≠ [] :=
          collapseWs_ne_nil _ (List.cons_ne_nil _ _)
        intro x hx
        apply ih h' x
        cases hcw : collapseWs (d :: t') with
        | nil => exact absurd hcw hz
        | cons w z' =>
          rw [hcw, List.getLast?_cons_cons] at hx
          exact hx

lemma dropWhile_eq_self_of_head (p : Char → Bool) (l : List Char)
    (h : ∀ x, l.head? = some x → p x = false) : l.dropWhile p = l := by
  cases l with
  | nil => rfl
  | cons c t =>
    rw [List.dropWhile_cons, if_neg (by rw [h c rfl]; exact Bool.false_ne_true)]

lemma stripChars_eq_self (l : List Char)
    (hh : ∀ x, l.head? = some x → isSpace x = false)
    (hl : ∀ x, l.getLast? = some x → isSpace x = false) : stripChars l = l := by
  rw [stripChars, dropWhile_eq_self_of_head _ _ hh,
    dropWhile_eq_self_of_head isSpace l.reverse
      (fun x hx => hl x (by rwa [List.head?_reverse] at hx)),
    List.reverse_reverse]

lemma head?_stripChars_not_space (l : List Char) :
    ∀ x, (stripChars l).head? = some x → isSpace x = false := by
  intro x hx
  rw [stripChars, List.head?_reverse] at hx
  have hm : (l.dropWhile isSpace).reverse.dropWhile isSpace ≠ [] := by
    intro he
    rw [he] at hx
    cases hx
  rw [getLast?_dropWhile_of_ne_nil _ _ hm, List.getLast?_reverse] at hx
  exact head?_dropWhile_not isSpace l x hx

lemma getLast?_stripChars_not_space (l : List Char) :
    ∀ x, (stripChars l).getLast? = some x → isSpace x = false := by
  intro x hx
  rw [stripChars, List.getLast?_reverse] at hx
  exact head?_dropWhile_not isSpace (l.dropWhile isSpace).reverse x hx

/-- The invariant of collapsed text: every whitespace character is a single
ASCII space not followed by whitespace. -/
def collapsedB : List Char → Bool
  | [] => true
  | [c] => !isSpace c || decide (c = ' ')
  | c :: d :: rest =>
    (!isSpace c || (decide (c = ' ') && !isSpace d)) && collapsedB (d :: rest)

lemma collapseWs_of_collapsedB (l : List Char) (h : collapsedB l = true) :
    collapseWs l = l := by
  induction l with
  | nil => rfl
  | cons c t ih =>
    cases t with
    | nil =>
      rw [collapsedB] at h
      rw [collapseWs]
      by_cases hsp : isSpace c
      · have hc : c = ' ' := by
          rw [Bool.or_eq_true, Bool.not_eq_eq_eq_not, Bool.not_true] at h
          rcases h with h | h
          · exact absurd hsp (by rw [h]; exact Bool.false_ne_true)
          · exact of_decide_eq_true h
        rw [if_pos hsp, hc]
      · rw [if_neg hsp]
    | cons d t' =>
      rw [collapsedB, Bool.and_eq_true] at h
      obtain ⟨h1, h2⟩ := h
      rw [collapseWs]
      by_cases hc : isSpace c
      · rw [Bool.or_eq_true, Bool.not_eq_eq_eq_not, Bool.not_true] at h1
        rcases h1 with h1 | h1
        · exact absurd hc (by rw [h1]; exact Bool.false_ne_true)
        · rw [Bool.and_eq_true, Bool.not_eq_eq_eq_not, Bool.not_true] at h1
          obtain ⟨hceq, hd⟩ := h1
          rw [if_pos hc, if_neg (by rw [hd]; exact Bool.false_ne_true), ih h2,
            of_decide_eq_true hceq]
      · rw [if_neg hc, ih h2]

lemma collapsedB_collapseWs (l : List Char) : collapsedB (collapseWs l) = true := by
  induction l with
  | nil => rfl
  | cons c t ih =>
    cases t with
    | nil =>
      rw [collapseWs]
      by_cases hsp : isSpace c
      · rw [if_pos hsp]
        decide
      · rw [if_neg hsp]
        rw [collapsedB, Bool.or_eq_true, Bool.not_eq_eq_eq_not, Bool.not_true]
        exact Or.inl (Bool.eq_false_iff.2 hsp)
    | cons d t' =>
      rw [collapseWs]
      by_cases hc : isSpace c
      · by_cases hd : isSpace d
        · rw [if_pos hc, if_pos hd]
          exact ih
        · rw [if_pos hc, if_neg hd]
          obtain ⟨z, hz⟩ := collapseWs_head_of_not_space d t' hd
          rw [hz]
          rw [hz] at ih
          rw [collapsedB, Bool.and_eq_true]
          refine ⟨?_, ih⟩
          rw [Bool.or_eq_true]
          right
          rw [Bool.and_eq_true, Bool.not_eq_eq_eq_not, Bool.not_true]
          exact ⟨decide_eq_true rfl, Bool.eq_false_iff.2 hd⟩
      · rw [if_neg hc]
        cases hcw : collapseWs (d :: t') with
        | nil =>
          rw [collapsedB, Bool.or_eq_true, Bool.not_eq_eq_eq_not, Bool.not_true]
          exact Or.inl (Bool.eq_false_iff.2 hc)
        | cons w z' =>
          rw [hcw] at ih
          rw [collapsedB, Bool.and_eq_true]
          refine ⟨?_, ih⟩
          rw [Bool.or_eq_true]
          left
          rw [Bool.not_eq_eq_eq_not, Bool.not_true]
          exact Bool.eq_false_iff.2 hc

lemma collapseWs_idem (l : List Char) : collapseWs (collapseWs l) = collapseWs l :=
  collapseWs_of_collapsedB _ (collapsedB_collapseWs l)

/-- Normalization is idempotent (spec §8, used by C10). -/
lemma replaceAllAux_eq_self (needle repl : List Char) :
    ∀ (fuel : Nat) (l : List Char), ¬ needle <:+: l →
      replaceAllAux needle repl fuel l = l := by
  intro fuel
  induction fuel with
  | zero => intro l _; cases l <;> rfl
  | succ fuel ih =>
    intro l h
    cases l with
    | nil => rfl
    | cons c t =>
      have hp : ¬ needle.isPrefixOf (c :: t) = true := by
        intro hp
        obtain ⟨t2, ht2⟩ := (isPrefixOf_true_iff _ _).1 hp
        exact h ⟨[], t2, by rw [List.nil_append, ht2]⟩
      rw [replaceAllAux, if_neg hp,
        ih t (fun ht => h (by
          obtain ⟨s, t2, rfl⟩ := ht
          exact ⟨c :: s, t2, rfl⟩))]

lemma replaceAll_eq_self (needle repl l : List Char) (h : ¬ needle <:+: l) :
    replaceAll needle repl l = l :=
  replaceAllAux_eq_self needle repl l.length l h

lemma needleLit_map_lowerChar : needleLit.map lowerChar = needleLit := by decide

/-- Normalization is idempotent on inputs whose lowercased
whitespace-normalized text does not contain `needleLit`: the literal
replacement is then a no-op on both passes.  (It is not idempotent in
general: lowercasing can create a fresh occurrence of the literal that
only a second pass replaces — see the C10 counterexample.) -/
theorem normalize_text_fix (l : List Char)
    (h : ¬ needleLit <:+: (collapseWs (stripChars l)).map lowerChar) :
    normalize_text (normalize_text l) = normalize_text l := by
  have hy : ¬ needleLit <:+: collapseWs (stripChars l) := by
    intro hocc
    obtain ⟨s, t, ht⟩ := hocc
    exact h ⟨s.map lowerChar, t.map lowerChar, by
      rw [← ht, List.map_append, List.map_append, needleLit_map_lowerChar]⟩
  have h1 : normalize_text l = (collapseWs (stripChars l)).map lowerChar := by
    rw [normalize_text, replaceAll_eq_self _ _ _ hy]
  have hsy : stripChars (collapseWs (stripChars l)) = collapseWs (stripChars l) :=
    stripChars_eq_self _
      (head?_collapseWs_not_space _ (head?_stripChars_not_space l))
      (getLast?_collapseWs_not_space _ (getLast?_stripChars_not_space l))
  rw [normalize_text, h1, stripChars_map_lowerChar, hsy, collapseWs_map_lowerChar,
    collapseWs_idem, replaceAll_eq_self _ _ _ h, map_lowerChar_idem]

/-- C10 (amended): pre-normalizing either argument of the similarity scorer
never changes the score, provided `needleLit` does not occur in the
lowercased whitespace-normalized form of either input (then normalization
is idempotent on both).  Without that proviso the equality fails — see the
counterexample — because the replacement of `needleLit` runs before
lowercasing, so normalization is not idempotent. -/
theorem calculate_similarity_normalize (a b : List Char)
    (ha : ¬ needleLit <:+: (collapseWs (stripChars a)).map lowerChar)
    (hb : ¬ needleLit <:+: (collapseWs (stripChars b)).map lowerChar) :
    calculate_similarity (normalize_text a) (normalize_text b) =
      calculate_similarity a b := by
  have h1 : wordSet (normalize_text a) = wordSet a := by
    rw [wordSet, wordSet, normalize_text_fix a ha]
  have h2 : wordSet (normalize_text b) = wordSet b := by
    rw [wordSet, wordSet, normalize_text_fix b hb]
  simp only [calculate_similarity]
  rw [h1, h2]

/-- Witness for the amended C10 theorem at concrete needle-free inputs. -/
theorem calculate_similarity_normalize_witness :
    (¬ needleLit <:+: (collapseWs (stripChars "AA  Bb".toList)).map lowerChar) ∧
    (¬ needleLit <:+: (collapseWs (stripChars "bb aa".toList)).map lowerChar) ∧
    calculate_similarity (normalize_text "AA  Bb".toList)
        (normalize_text "bb aa".toList) =
      calculate_similarity "AA  Bb".toList "bb aa".toList :=
  ⟨by decide, by decide,
    calculate_similarity_normalize "AA  Bb".toList "bb aa".toList
      (by decide) (by decide)⟩

/-- Counterexample for C10 as stated: the program replaces the literal
`needleLit` before lowercasing, so lowercasing an uppercase spelling of the
literal creates an occurrence that only a second normalization pass
replaces.  For the document below, normalizing once leaves the literal in
place, so similarity of the pre-normalized pair is 1 while similarity of
the raw pair is 0. -/
theorem calculate_similarity_normalize_counterexample :
    calculate_similarity
        (normalize_text ("aa".toList ++
          [',', ' ', '"', '\'', '"', ')', '.', 'R', 'E', 'P', 'L', 'A', 'C', 'E', '('] ++
          "bb".toList))
        (normalize_text ("aa".toList ++ ['\''] ++ "bb".toList)) = 1 ∧
    calculate_similarity
        ("aa".toList ++
          [',', ' ', '"', '\'', '"', ')', '.', 'R', 'E', 'P', 'L', 'A', 'C', 'E', '('] ++
          "bb".toList)
        ("aa".toList ++ ['\''] ++ "bb".toList) = 0 ∧
    (1 : ℚ) ≠ 0 := by
  refine ⟨?_, ?_, one_ne_zero⟩ <;> with_unfolding_all decide

end CommunityAnnotation
